import Mathlib

/-!
Verification of the JAGUIHELL Hellschreiber transmitter core
(`JAGUIHELL.py`): glyph lookup, character-to-waveform encoding,
transmission assembly with inter-character gaps and completion
schedule, the audio write loop's failure handling, and PTT control.

The Python module is embedded shallowly:

* machine reals that only ever feed `int(...)` truncations are embedded
  as exact natural-number computations (each is checked against the
  float value in a comment);
* a NumPy sample is embedded by the inductive `Sample`: `Sample.tone i`
  stands for the float `0.5 * sin(2 * pi * FREQ * (i / SAMPLE_RATE))`
  produced by `generate_tone(True)` at offset `i` (the `np.linspace`
  grid point `t_i = i / SAMPLE_RATE`), and `Sample.zero` stands for the
  float `0.0`; equal `Sample` lists denote equal float buffers;
* Python dicts of glyphs are embedded as association lists (`Table`);
* code that can raise returns `Option`, with `none` for the raising
  path, and `try/except/finally` blocks are embedded by explicit
  branching on those options.
-/

namespace Jaguihell

/-- Source constant `FREQ = 1000` (audio tone frequency, Hz). -/
def FREQ : ℕ := 1000

/-- Source constant `SAMPLE_RATE = 48000`. -/
def SAMPLE_RATE : ℕ := 48000

/-- Source constant `PIXELS_PER_COLUMN = 14`. -/
def PIXELS_PER_COLUMN : ℕ := 14

/-- Source constant `COLUMNS_PER_CHAR = 13` (default width for CJK). -/
def COLUMNS_PER_CHAR : ℕ := 13

/-- Source constant `ASCII_COLUMNS = 9` (ASCII glyph width). -/
def ASCII_COLUMNS : ℕ := 9

/-- Source constant `SAMPLES_PER_PIXEL = int(SAMPLE_RATE * 0.004045)`.
Embedded exactly: `48000 * 4045 / 1000000 = 194`, which agrees with the
float evaluation `int(194.15999999999997) = 194`. -/
def SAMPLES_PER_PIXEL : ℕ := SAMPLE_RATE * 4045 / 1000000

/-- Source constant
`SAMPLES_PER_CHAR = SAMPLES_PER_PIXEL * PIXELS_PER_COLUMN * COLUMNS_PER_CHAR`. -/
def SAMPLES_PER_CHAR : ℕ := SAMPLES_PER_PIXEL * PIXELS_PER_COLUMN * COLUMNS_PER_CHAR

/-- Source function `_samples_for_columns(cols)`. -/
def samples_for_columns (cols : ℕ) : ℕ := SAMPLES_PER_PIXEL * PIXELS_PER_COLUMN * cols

/-- Source constant `LATENCY = 0.2` (seconds), embedded in milliseconds. -/
def LATENCY_MS : ℕ := 200

/-- Source expression
`gap_samples = int(SAMPLE_RATE * (INTER_CHAR_GAP_MS / 1000.0))` with
`INTER_CHAR_GAP_MS = 3.2`. Embedded exactly: `48000 * 32 / 10000 = 153`,
which agrees with the float evaluation `int(153.60000000000002) = 153`. -/
def INTER_CHAR_GAP_SAMPLES : ℕ := SAMPLE_RATE * 32 / 10000

/-- One float32 audio sample of `JAGUIHELL.py`, represented
symbolically: `tone i` is the value
`0.5 * np.sin(2 * np.pi * FREQ * (i / SAMPLE_RATE))` that
`generate_tone(True)` places at offset `i` of its output, and `zero`
is the float `0.0` produced by `np.zeros`. -/
inductive Sample where
  | tone (i : ℕ)
  | zero
deriving DecidableEq, Repr

/-- Source function `generate_tone(on)`: for `on`, the `np.linspace`
grid gives the samples `0.5*sin(2*pi*FREQ*(i/SAMPLE_RATE))` for
`i = 0, ..., SAMPLES_PER_PIXEL - 1` (here `Sample.tone i`); otherwise
`np.zeros(SAMPLES_PER_PIXEL)`. -/
def generate_tone (bitOn : Bool) : List Sample :=
  if bitOn then (List.range SAMPLES_PER_PIXEL).map Sample.tone
  else List.replicate SAMPLES_PER_PIXEL Sample.zero

/-- Source function `generate_silence(duration)` (duration given here in
samples directly, as `int(SAMPLE_RATE * duration)`). -/
def generate_silence (samples : ℕ) : List Sample :=
  List.replicate samples Sample.zero

/-- Pad/truncate a column list to `cols` entries. This is the shared
body of the three identical source helpers `_norm` (inside
`load_glyphs`, with `cols = COLUMNS_PER_CHAR`), `_ensure_ascii_cols`
(with `cols = ASCII_COLUMNS`) and `_ensure_columns`:
`if len(lst) >= cols: return lst[:cols]` else
`lst.extend([0] * (cols - len(lst)))`. -/
def ensure_columns (glyph_data : List ℕ) (cols : ℕ) : List ℕ :=
  if cols ≤ glyph_data.length then glyph_data.take cols
  else glyph_data ++ List.replicate (cols - glyph_data.length) 0

/-- A glyph dictionary (`GLYPHS` / `ASCII_GLYPHS`): Python dict from a
one-character string to a column list, embedded as an association
list. -/
def Table := List (Char × List ℕ)

/-- Dictionary membership/indexing `c in t` / `t[c]`. -/
def Table.find (t : Table) (c : Char) : Option (List ℕ) :=
  List.lookup c t

/-- Source `load_glyphs()`: normalize every glyph of the imported CJK
table with `_norm` (pad/truncate to `COLUMNS_PER_CHAR`). -/
def load_glyphs (raw : Table) : Table :=
  raw.map (fun kv => (kv.1, ensure_columns kv.2 COLUMNS_PER_CHAR))

/-- Source normalization of `ascii_glyphs.GLYPHS`: every glyph mapped
through `_ensure_ascii_cols` (pad/truncate to `ASCII_COLUMNS`). -/
def load_ascii_glyphs (raw : Table) : Table :=
  raw.map (fun kv => (kv.1, ensure_columns kv.2 ASCII_COLUMNS))

/-- The source loop `for c in candidates: if c in table: glyph_data = table[c]; break`. -/
def firstHit (t : Table) : List Char → Option (List ℕ)
  | [] => none
  | c :: cs =>
    match t.find c with
    | some g => some g
    | none => firstHit t cs

/-- Glyph resolution of `send_char` (lines 198-217): for
`ord(ch) <= 0x7F` the candidates `[ch, ch.upper(), ch.lower()]` are
tried against `ASCII_GLYPHS` first and only then against `GLYPHS`;
otherwise `GLYPHS` is tried with `ch` and then with the same candidate
loop. (`Char.toUpper` / `Char.toLower` agree with Python's
`str.upper` / `str.lower` on the ASCII range.) -/
def lookupGlyph (ascii_glyphs glyphs : Table) (ch : Char) : Option (List ℕ) :=
  if ch.toNat ≤ 0x7F then
    match firstHit ascii_glyphs [ch, ch.toUpper, ch.toLower] with
    | some g => some g
    | none => firstHit glyphs [ch, ch.toUpper, ch.toLower]
  else
    match glyphs.find ch with
    | some g => some g
    | none => firstHit glyphs [ch, ch.toUpper, ch.toLower]

/-- NumPy slice assignment `buf[start:start+w.length] = w` (as used in
`send_char`, always guarded so that the slice lies inside `buf`). -/
def writeSlice (buf : List Sample) (start : ℕ) (w : List Sample) : List Sample :=
  buf.take start ++ w ++ buf.drop (start + w.length)

/-- One iteration of the inner pixel loop of `send_char` (lines
232-238): compute the pixel's wave, write it at `sample_index` if the
slice fits (`end <= total_samples`), and advance `sample_index` by
`SAMPLES_PER_PIXEL` unconditionally. The state is
`(buffer, sample_index)`. -/
def pixStep (total : ℕ) (st : List Sample × ℕ) (bitOn : Bool) : List Sample × ℕ :=
  let wave := generate_tone bitOn
  let endI := st.2 + SAMPLES_PER_PIXEL
  (if endI ≤ total then writeSlice st.1 st.2 wave else st.1, endI)

/-- The inner loop `for y in range(PIXELS_PER_COLUMN)` of `send_char`:
bit `y` of the column word selects tone or silence
(`bit = (data >> y) & 1`). -/
def encodeColumnInto (total : ℕ) (st : List Sample × ℕ) (data : ℕ) : List Sample × ℕ :=
  (List.range PIXELS_PER_COLUMN).foldl
    (fun s y => pixStep total s (((data >>> y) &&& 1) == 1)) st

/-- The column loop `for col in range(columns)` of `send_char` (lines
230-238), starting from `buffer = np.zeros(total_samples)` and
`sample_index = 0`. `glyph_cols[col]` raises `IndexError` when out of
range (only possible for an empty column list, since
`columns = max(1, len(glyph_cols))`); the raising path is `none`. -/
def encodeLoop (glyph_cols : List ℕ) (total : ℕ) : Option (List Sample × ℕ) :=
  (List.range (max 1 glyph_cols.length)).foldl
    (fun acc col => acc.bind fun st => (glyph_cols[col]?).map (encodeColumnInto total st))
    (some (List.replicate total Sample.zero, 0))

/-- The encoding part of `send_char` (lines 222-243) for a resolved
column-list glyph: run the column loop, then write the optional
trailing 1 ms silence (`int(SAMPLE_RATE * 0.001)` samples) only if it
fits. `none` is the internal-exception path (caught by the handler in
`send_char`). -/
def encodeBuffer (glyph_cols : List ℕ) : Option (List Sample) :=
  let columns := max 1 glyph_cols.length
  let total := samples_for_columns columns
  match encodeLoop glyph_cols total with
  | none => none
  | some (buf, sample_index) =>
    let silence_samples := SAMPLE_RATE / 1000
    if sample_index + silence_samples ≤ total then
      some (writeSlice buf sample_index (List.replicate silence_samples Sample.zero))
    else
      some buf

/-- Source function `send_char(ch)`: resolve the glyph (lines 198-217);
a miss prints and returns `np.zeros(SAMPLES_PER_CHAR)` (line 220);
otherwise encode the column list; any internal exception is caught and
also yields `np.zeros(SAMPLES_PER_CHAR)` (line 246). (In this model a
table value is always a list, so the `isinstance` re-normalization
branch of line 225 is unreachable.) -/
def send_char (ascii_glyphs glyphs : Table) (ch : Char) : List Sample :=
  match lookupGlyph ascii_glyphs glyphs ch with
  | none => List.replicate SAMPLES_PER_CHAR Sample.zero
  | some glyph_data =>
    match encodeBuffer glyph_data with
    | some buf => buf
    | none => List.replicate SAMPLES_PER_CHAR Sample.zero

/-- The wave-assembly loop of `transmit_text` (lines 643-655): for each
character append `send_char(ch)` to `waves`; if the character is not
the last one and `gap_samples > 0`, additionally append the silence
gap and count it into that character's duration; `durations_samples`
gets one entry per character. Returns `(waves, durations_samples)`.
(The `try/except` around `send_char` never fires in this model since
`send_char` is total; its fallback is the same blank buffer `send_char`
itself returns on an internal error.) -/
def assemble (ascii_glyphs glyphs : Table) (gap_samples : ℕ) :
    List Char → List (List Sample) × List ℕ
  | [] => ([], [])
  | ch :: rest =>
    let w := send_char ascii_glyphs glyphs ch
    let tl := assemble ascii_glyphs glyphs gap_samples rest
    if rest.isEmpty then
      (w :: tl.1, w.length :: tl.2)
    else if 0 < gap_samples then
      (w :: List.replicate gap_samples Sample.zero :: tl.1,
       (w.length + gap_samples) :: tl.2)
    else
      (w :: tl.1, w.length :: tl.2)

/-- The scheduling loop of `transmit_text` (lines 659-663): running
accumulator `cumulative += samples` over `durations_samples`; each
entry is the cumulative sample count at which the corresponding
character's audible transmission (including its trailing gap) is
complete. -/
def scheduleFrom (cumulative : ℕ) : List ℕ → List ℕ
  | [] => []
  | d :: ds => (cumulative + d) :: scheduleFrom (cumulative + d) ds

/-- The completion schedule of a transmission job: `scheduleFrom`
started at `cumulative = 0`. -/
def scheduleOf (durations_samples : List ℕ) : List ℕ :=
  scheduleFrom 0 durations_samples

/-- The RTS/DTR output lines of the serial port backing PTT. -/
structure SerialLines where
  rts : Bool
  dtr : Bool
deriving DecidableEq, Repr

/-- State of the source class `PTTControl`: the (possibly absent)
serial port with its two control lines, and the configuration flags
`use_rts` / `use_dtr`. -/
structure PTTControl where
  serial_port : Option SerialLines
  use_rts : Bool
  use_dtr : Bool
deriving DecidableEq, Repr

/-- Source method `PTTControl.set_ptt(state)` (lines 72-77): when a
port is open, drive RTS to `state` only if `use_rts`, and DTR to
`state` only if `use_dtr`; with no port, do nothing. -/
def set_ptt (p : PTTControl) (state : Bool) : PTTControl :=
  match p.serial_port with
  | none => p
  | some lines =>
    let lines := if p.use_rts then { lines with rts := state } else lines
    let lines := if p.use_dtr then { lines with dtr := state } else lines
    { p with serial_port := some lines }

/-- Observable outcome of one `_play_waves` chunk-write loop run
(lines 584-596): how many chunk writes succeeded, whether
`audio_available` ends up true, how many times the loop called
`_initialize_audio_stream` after a failed write, and whether the call
raised to its caller. -/
structure PlayWriteResult where
  written : ℕ
  sinkAvailable : Bool
  reinitAttempts : ℕ
  raised : Bool
deriving DecidableEq, Repr

/-- The chunk-write loop of `_play_waves` (lines 584-596), from chunk
index `k` with `n` chunks remaining. `writeOk i` tells whether the
`i`-th `audio_stream.write` call succeeds; `reinitOk` tells whether
the recovery call to `_initialize_audio_stream` succeeds (on success
it sets `audio_available = True` again; its own failure is swallowed
by the inner `except: pass`). On a failed write the source sets
`audio_available = False`, attempts the one reinitialization, and then
unconditionally re-raises, so no further chunk is written. -/
def playWritesFrom (writeOk : ℕ → Bool) (reinitOk : Bool) (k : ℕ) : ℕ → PlayWriteResult
  | 0 => { written := 0, sinkAvailable := true, reinitAttempts := 0, raised := false }
  | n + 1 =>
    if writeOk k then
      let r := playWritesFrom writeOk reinitOk (k + 1) n
      { r with written := r.written + 1 }
    else
      { written := 0, sinkAvailable := reinitOk, reinitAttempts := 1, raised := true }

/-- The whole chunk loop of `_play_waves` over `nChunks` chunks,
starting (as the source does, after the `audio_available` precondition
check of line 569) with the sink available. -/
def play_waves_loop (writeOk : ℕ → Bool) (reinitOk : Bool) (nChunks : ℕ) : PlayWriteResult :=
  playWritesFrom writeOk reinitOk 0 nChunks

/-- Observable events of the `transmit_text` worker (lines 633-686):
`set_ptt` calls, `time.sleep` delays (milliseconds), handing the waves
to playback, and the error dialog of an exception handler. -/
inductive TxEvent where
  | pttCall (state : Bool)
  | sleepMs (ms : ℕ)
  | playWaves
  | showError
deriving DecidableEq, Repr

/-- How the body of the `transmit_text` `try` block ends: `normal`
(playback completed), `emptyWaves` (the `if not waves: return` early
return of line 656), `playFailed` (the playback call raised; caught by
the inner handler of lines 677-679, which shows the error dialog and
does not re-raise), or `bodyFailed` (some other exception in the body,
e.g. from `assemble`; caught by the outer handler of lines 680-682). -/
inductive TxOutcome where
  | normal
  | emptyWaves
  | playFailed
  | bodyFailed
deriving DecidableEq, Repr

/-- The event trace of one `transmit_text` run (lines 633-686): the
`try` body asserts PTT and sleeps the lead delay, then (depending on
the outcome) plays and/or shows an error dialog; the `finally` block
(lines 683-686) always sleeps the trail delay and deasserts PTT —
also on the early `return` and on every exception path. -/
def transmit_text_events (o : TxOutcome) : List TxEvent :=
  (match o with
   | .normal =>
     [TxEvent.pttCall true, TxEvent.sleepMs LATENCY_MS, TxEvent.playWaves]
   | .emptyWaves =>
     [TxEvent.pttCall true, TxEvent.sleepMs LATENCY_MS]
   | .playFailed =>
     [TxEvent.pttCall true, TxEvent.sleepMs LATENCY_MS, TxEvent.playWaves,
      TxEvent.showError]
   | .bodyFailed =>
     [TxEvent.pttCall true, TxEvent.sleepMs LATENCY_MS, TxEvent.showError])
  ++ [TxEvent.sleepMs LATENCY_MS, TxEvent.pttCall false]

/-- Replay the `set_ptt` calls of an event trace against a
`PTTControl` state. -/
def pttStateAfter (p : PTTControl) (evs : List TxEvent) : PTTControl :=
  evs.foldl
    (fun q e => match e with | .pttCall b => set_ptt q b | _ => q) p

/-- The argument of the last `set_ptt` call in a trace, if any. -/
def lastPtt (evs : List TxEvent) : Option Bool :=
  evs.foldl
    (fun acc e => match e with | .pttCall b => some b | _ => acc) none

/-- Bits of one glyph column as consumed by the inner pixel loop of
`send_char`: bit `y` (bottom pixel first) of the column word. -/
def colBits (data : ℕ) : List Bool :=
  (List.range PIXELS_PER_COLUMN).map (fun y => ((data >>> y) &&& 1) == 1)

/-- The samples one column contributes: its pixel waves, bottom to
top, concatenated. -/
def colWave (data : ℕ) : List Sample :=
  ((colBits data).map generate_tone).flatten

/-- The samples a whole glyph contributes: its column waves, left to
right, concatenated. -/
def charWave (glyph : List ℕ) : List Sample :=
  (glyph.map colWave).flatten

theorem generate_tone_length (b : Bool) :
    (generate_tone b).length = SAMPLES_PER_PIXEL := by
  cases b <;> simp [generate_tone]

theorem writeSlice_within (pre : List Sample) (m : ℕ) (w : List Sample)
    (_hw : w.length ≤ m) :
    writeSlice (pre ++ List.replicate m Sample.zero) pre.length w
      = (pre ++ w) ++ List.replicate (m - w.length) Sample.zero := by
  unfold writeSlice
  rw [List.take_left' rfl]
  have hdrop :
      (pre ++ List.replicate m Sample.zero).drop (pre.length + w.length)
        = List.replicate (m - w.length) Sample.zero := by
    rw [← List.drop_drop, List.drop_left' rfl, List.drop_replicate]
  rw [hdrop, List.append_assoc]

theorem pixStep_eq (total : ℕ) (buf : List Sample) (si : ℕ) (b : Bool) :
    pixStep total (buf, si) b
      = (if si + SAMPLES_PER_PIXEL ≤ total
           then writeSlice buf si (generate_tone b) else buf,
         si + SAMPLES_PER_PIXEL) := rfl

theorem pixFold (bits : List Bool) :
    ∀ (A : List Sample) (total : ℕ),
      A.length + bits.length * SAMPLES_PER_PIXEL ≤ total →
      bits.foldl (pixStep total)
          (A ++ List.replicate (total - A.length) Sample.zero, A.length)
        = ((A ++ (bits.map generate_tone).flatten)
             ++ List.replicate
                 (total - (A.length + bits.length * SAMPLES_PER_PIXEL)) Sample.zero,
           A.length + bits.length * SAMPLES_PER_PIXEL) := by
  induction bits with
  | nil => intro A total h; simp
  | cons b bs ih =>
    intro A total h
    have hmul : (b :: bs).length * SAMPLES_PER_PIXEL
        = SAMPLES_PER_PIXEL + bs.length * SAMPLES_PER_PIXEL := by
      rw [List.length_cons, Nat.succ_mul, Nat.add_comm]
    have hspp : (generate_tone b).length = SAMPLES_PER_PIXEL :=
      generate_tone_length b
    have hle : A.length + SAMPLES_PER_PIXEL ≤ total := by omega
    have hstep :
        pixStep total
            (A ++ List.replicate (total - A.length) Sample.zero, A.length) b
          = ((A ++ generate_tone b)
               ++ List.replicate (total - (A.length + SAMPLES_PER_PIXEL)) Sample.zero,
             A.length + SAMPLES_PER_PIXEL) := by
      rw [pixStep_eq, if_pos hle,
          writeSlice_within A (total - A.length) (generate_tone b) (by omega)]
      rw [hspp, Nat.sub_sub]
    have hlen' : (A ++ generate_tone b).length = A.length + SAMPLES_PER_PIXEL := by
      rw [List.length_append, hspp]
    rw [List.foldl_cons, hstep, ← hlen',
        ih (A ++ generate_tone b) total (by omega)]
    have hcount : (A ++ generate_tone b).length + bs.length * SAMPLES_PER_PIXEL
        = A.length + (b :: bs).length * SAMPLES_PER_PIXEL := by omega
    rw [hcount, List.map_cons, List.flatten_cons]
    simp [List.append_assoc]

theorem colWave_length (d : ℕ) :
    (colWave d).length = PIXELS_PER_COLUMN * SAMPLES_PER_PIXEL := by
  have h1 : ((colBits d).map generate_tone).map List.length
      = List.replicate PIXELS_PER_COLUMN SAMPLES_PER_PIXEL := by
    rw [List.map_map]
    have h2 : (List.length ∘ generate_tone) = fun _ : Bool => SAMPLES_PER_PIXEL := by
      funext b; exact generate_tone_length b
    rw [h2, List.map_const']
    have h3 : (colBits d).length = PIXELS_PER_COLUMN := by simp [colBits]
    rw [h3]
  rw [colWave, List.length_flatten, h1, List.sum_replicate, smul_eq_mul]

theorem encodeColumnInto_eq (total : ℕ) (st : List Sample × ℕ) (data : ℕ) :
    encodeColumnInto total st data = (colBits data).foldl (pixStep total) st := by
  rw [encodeColumnInto, colBits, List.foldl_map]

theorem colsFold (cols : List ℕ) :
    ∀ (A : List Sample) (total : ℕ),
      A.length + (charWave cols).length ≤ total →
      cols.foldl (encodeColumnInto total)
          (A ++ List.replicate (total - A.length) Sample.zero, A.length)
        = ((A ++ charWave cols)
             ++ List.replicate
                 (total - (A.length + (charWave cols).length)) Sample.zero,
           A.length + (charWave cols).length) := by
  induction cols with
  | nil => intro A total h; simp [charWave]
  | cons d ds ih =>
    intro A total h
    have hchar : charWave (d :: ds) = colWave d ++ charWave ds := by
      simp [charWave]
    have hcb : (colBits d).length = PIXELS_PER_COLUMN := by simp [colBits]
    have hlen : (colWave d).length = PIXELS_PER_COLUMN * SAMPLES_PER_PIXEL :=
      colWave_length d
    have hsplit : (charWave (d :: ds)).length
        = PIXELS_PER_COLUMN * SAMPLES_PER_PIXEL + (charWave ds).length := by
      rw [hchar, List.length_append, hlen]
    have h1 : A.length + (colBits d).length * SAMPLES_PER_PIXEL ≤ total := by
      rw [hcb]; omega
    have hfold := pixFold (colBits d) A total h1
    have hcw : ((colBits d).map generate_tone).flatten = colWave d := rfl
    rw [hcw, hcb] at hfold
    have hlen' : (A ++ colWave d).length
        = A.length + PIXELS_PER_COLUMN * SAMPLES_PER_PIXEL := by
      rw [List.length_append, hlen]
    rw [List.foldl_cons, encodeColumnInto_eq, hfold, ← hlen',
        ih (A ++ colWave d) total (by omega)]
    have hcount : (A ++ colWave d).length + (charWave ds).length
        = A.length + (charWave (d :: ds)).length := by omega
    rw [hcount, hchar]
    simp [List.append_assoc]

theorem charWave_length (glyph : List ℕ) :
    (charWave glyph).length = samples_for_columns glyph.length := by
  induction glyph with
  | nil => simp [charWave, samples_for_columns]
  | cons d ds ih =>
    have hchar : charWave (d :: ds) = colWave d ++ charWave ds := by
      simp [charWave]
    rw [hchar, List.length_append, colWave_length, ih,
        samples_for_columns, samples_for_columns, List.length_cons, Nat.mul_succ]
    ring

theorem foldlIdx_eq {α β : Type} (f : β → α → β) :
    ∀ (l : List α) (st : β),
      (List.range l.length).foldl
          (fun acc i => acc.bind fun s => (l[i]?).map (f s)) (some st)
        = some (l.foldl f st) := by
  intro l
  induction l with
  | nil => intro st; simp
  | cons a tl ih =>
    intro st
    rw [List.length_cons, List.range_succ_eq_map, List.foldl_cons, List.foldl_map]
    simp only [List.getElem?_cons_zero, Option.some_bind, Option.map_some',
      Nat.succ_eq_add_one, List.getElem?_cons_succ]
    exact ih (f st a)

theorem encodeLoop_spec (glyph : List ℕ) (h : glyph ≠ []) :
    encodeLoop glyph (samples_for_columns glyph.length)
      = some (charWave glyph, samples_for_columns glyph.length) := by
  have hpos : 1 ≤ glyph.length := List.length_pos.mpr h
  have hmax : max 1 glyph.length = glyph.length := Nat.max_eq_right hpos
  rw [encodeLoop, hmax, foldlIdx_eq]
  have hc := colsFold glyph [] (samples_for_columns glyph.length)
      (by simp [charWave_length])
  simp only [List.nil_append, List.length_nil, Nat.sub_zero, Nat.zero_add,
    charWave_length, Nat.sub_self, List.replicate_zero, List.append_nil] at hc
  rw [hc]

theorem silence_samples_pos : 0 < SAMPLE_RATE / 1000 := by decide

theorem encodeBuffer_spec (glyph : List ℕ) (h : glyph ≠ []) :
    encodeBuffer glyph = some (charWave glyph) := by
  have hpos : 1 ≤ glyph.length := List.length_pos.mpr h
  have hmax : max 1 glyph.length = glyph.length := Nat.max_eq_right hpos
  have h48 : 0 < SAMPLE_RATE / 1000 := silence_samples_pos
  simp only [encodeBuffer, hmax, encodeLoop_spec glyph h]
  rw [if_neg (by omega)]

theorem encodeBuffer_length (glyph : List ℕ) (h : glyph ≠ []) :
    ∃ buf, encodeBuffer glyph = some buf
      ∧ buf.length = samples_for_columns glyph.length := by
  exact ⟨charWave glyph, encodeBuffer_spec glyph h, charWave_length glyph⟩

theorem send_char_hit (ascii_glyphs glyphs : Table) (ch : Char) (glyph : List ℕ)
    (hl : lookupGlyph ascii_glyphs glyphs ch = some glyph) (hne : glyph ≠ []) :
    send_char ascii_glyphs glyphs ch = charWave glyph := by
  simp only [send_char, hl, encodeBuffer_spec glyph hne]

theorem send_char_miss (ascii_glyphs glyphs : Table) (ch : Char)
    (hl : lookupGlyph ascii_glyphs glyphs ch = none) :
    send_char ascii_glyphs glyphs ch
      = List.replicate SAMPLES_PER_CHAR Sample.zero := by
  simp only [send_char, hl]

theorem send_char_raise (ascii_glyphs glyphs : Table) (ch : Char) (glyph : List ℕ)
    (hl : lookupGlyph ascii_glyphs glyphs ch = some glyph)
    (he : encodeBuffer glyph = none) :
    send_char ascii_glyphs glyphs ch
      = List.replicate SAMPLES_PER_CHAR Sample.zero := by
  simp only [send_char, hl, he]

theorem scheduleFrom_length (ds : List ℕ) :
    ∀ c, (scheduleFrom c ds).length = ds.length := by
  induction ds with
  | nil => intro c; rfl
  | cons d ds ih => intro c; simp [scheduleFrom, ih]

theorem scheduleFrom_add (ds : List ℕ) :
    ∀ a b, scheduleFrom (a + b) ds = (scheduleFrom b ds).map (a + ·) := by
  induction ds with
  | nil => intro a b; rfl
  | cons d ds ih =>
    intro a b
    simp only [scheduleFrom, List.map_cons, Nat.add_assoc, ih a (b + d)]

theorem scheduleOf_cons (d : ℕ) (ds : List ℕ) :
    scheduleOf (d :: ds) = d :: (scheduleOf ds).map (d + ·) := by
  have h := scheduleFrom_add ds d 0
  simp only [scheduleOf, scheduleFrom, Nat.zero_add, Nat.add_zero] at h ⊢
  rw [h]

theorem encodeBuffer_nil : encodeBuffer [] = none := rfl

/-- C1: for a character with code point ≤ 0x7F, glyph lookup tries the
primary (ASCII) table with the literal character, then its upper-case
form, then its lower-case form, and only if all three miss does it
fall back to the secondary table with the same three-way order; in
particular a primary table containing only `'a'` resolves input `'A'`
to that glyph. -/
theorem claim_C1 (ascii_glyphs glyphs : Table) (ch : Char)
    (h : ch.toNat ≤ 0x7F) :
    (∀ g, ascii_glyphs.find ch = some g →
      lookupGlyph ascii_glyphs glyphs ch = some g) ∧
    (∀ g, ascii_glyphs.find ch = none →
      ascii_glyphs.find ch.toUpper = some g →
      lookupGlyph ascii_glyphs glyphs ch = some g) ∧
    (∀ g, ascii_glyphs.find ch = none →
      ascii_glyphs.find ch.toUpper = none →
      ascii_glyphs.find ch.toLower = some g →
      lookupGlyph ascii_glyphs glyphs ch = some g) ∧
    (ascii_glyphs.find ch = none →
      ascii_glyphs.find ch.toUpper = none →
      ascii_glyphs.find ch.toLower = none →
      lookupGlyph ascii_glyphs glyphs ch
        = firstHit glyphs [ch, ch.toUpper, ch.toLower]) ∧
    (∀ g T, lookupGlyph [('a', g)] T 'A' = some g) := by
  refine ⟨?_, ?_, ?_, ?_, ?_⟩
  · intro g hg; simp [lookupGlyph, h, firstHit, hg]
  · intro g h0 hg; simp [lookupGlyph, h, firstHit, h0, hg]
  · intro g h0 h1 hg; simp [lookupGlyph, h, firstHit, h0, h1, hg]
  · intro h0 h1 h2; simp [lookupGlyph, h, firstHit, h0, h1, h2]
  · intro g T; rfl

theorem claim_C1_witness :
    lookupGlyph [('a', [1, 2])] [] 'A' = some [1, 2] := by
  have h := claim_C1 [('a', [1, 2])] [] 'A' (by decide)
  exact h.2.2.2.2 [1, 2] []

/-- C4: every glyph resolved from an active table with `W ≥ 1` columns
encodes to a buffer of exactly `W * H * samples_per_pixel` samples,
with `H = PIXELS_PER_COLUMN = 14` and
`samples_per_pixel = int(48000 * 0.004045) = 194`, independent of the
glyph's bit pattern; every pixel, tone or silence, occupies exactly
`SAMPLES_PER_PIXEL` samples. -/
theorem claim_C4 (ascii_glyphs glyphs : Table) (ch : Char)
    (glyph : List ℕ) (W : ℕ)
    (hl : lookupGlyph ascii_glyphs glyphs ch = some glyph)
    (hW : glyph.length = W) (hpos : 1 ≤ W) :
    (send_char ascii_glyphs glyphs ch).length
        = W * PIXELS_PER_COLUMN * SAMPLES_PER_PIXEL ∧
    PIXELS_PER_COLUMN = 14 ∧ SAMPLES_PER_PIXEL = 194 ∧
    (∀ b, (generate_tone b).length = SAMPLES_PER_PIXEL) := by
  have hne : glyph ≠ [] := by
    intro hemp; rw [hemp] at hW; simp at hW; omega
  refine ⟨?_, rfl, by decide, generate_tone_length⟩
  rw [send_char_hit _ _ _ _ hl hne, charWave_length, hW, samples_for_columns]
  ring

theorem claim_C4_witness :
    (send_char [('a', [1, 2, 4, 8, 16, 32, 64, 128, 256])] [] 'a').length
        = 9 * PIXELS_PER_COLUMN * SAMPLES_PER_PIXEL ∧
    PIXELS_PER_COLUMN = 14 ∧ SAMPLES_PER_PIXEL = 194 ∧
    (∀ b, (generate_tone b).length = SAMPLES_PER_PIXEL) :=
  claim_C4 [('a', [1, 2, 4, 8, 16, 32, 64, 128, 256])] []
    'a' [1, 2, 4, 8, 16, 32, 64, 128, 256] 9 rfl rfl (by decide)

/-- C5: a column list shorter than the target width `W` is right-padded
with zero columns by the normalization the encoder consumes, and the
normalized list encodes to exactly the same sample buffer as the
explicitly zero-padded list; oversized data is truncated to `W`
entries; neither case is an error (the encoder still produces a
buffer). -/
theorem claim_C5 (lst : List ℕ) (W : ℕ) (h : lst.length < W) :
    ensure_columns lst W = lst ++ List.replicate (W - lst.length) 0 ∧
    encodeBuffer (ensure_columns lst W)
      = encodeBuffer (lst ++ List.replicate (W - lst.length) 0) ∧
    (encodeBuffer (ensure_columns lst W)).isSome = true ∧
    (∀ lst2 W2, W2 ≤ lst2.length → ensure_columns lst2 W2 = lst2.take W2) := by
  have hpad : ensure_columns lst W = lst ++ List.replicate (W - lst.length) 0 := by
    rw [ensure_columns, if_neg (by omega)]
  have hlen : (ensure_columns lst W).length = W := by
    rw [hpad]; simp; omega
  have hne : ensure_columns lst W ≠ [] := by
    rw [← List.length_pos, hlen]; omega
  refine ⟨hpad, by rw [hpad], ?_, ?_⟩
  · rw [encodeBuffer_spec _ hne]; rfl
  · intro lst2 W2 h2; rw [ensure_columns, if_pos h2]

theorem claim_C5_witness :
    ensure_columns [5] 9 = [5] ++ List.replicate (9 - [5].length) 0 ∧
    encodeBuffer (ensure_columns [5] 9)
      = encodeBuffer ([5] ++ List.replicate (9 - [5].length) 0) ∧
    (encodeBuffer (ensure_columns [5] 9)).isSome = true ∧
    (∀ lst2 W2, W2 ≤ lst2.length → ensure_columns lst2 W2 = lst2.take W2) :=
  claim_C5 [5] 9 (by decide)

/-- C9: the blank buffer returned on a double lookup miss (or when the
encoding raises internally) always has length
`SAMPLES_PER_CHAR = 13 * 14 * samples_per_pixel` — the secondary-table
width — even though an ASCII-range hit with a 9-column glyph encodes to
only `9 * 14 * samples_per_pixel` samples, so an ASCII-range miss
produces a strictly longer buffer than a hit. -/
theorem claim_C9 (ascii_glyphs glyphs : Table) (ch chHit : Char)
    (g9 : List ℕ)
    (hmiss : lookupGlyph ascii_glyphs glyphs ch = none)
    (_hasc : chHit.toNat ≤ 0x7F)
    (hhit : lookupGlyph ascii_glyphs glyphs chHit = some g9)
    (h9 : g9.length = ASCII_COLUMNS) :
    send_char ascii_glyphs glyphs ch
        = List.replicate SAMPLES_PER_CHAR Sample.zero ∧
    (send_char ascii_glyphs glyphs ch).length = SAMPLES_PER_CHAR ∧
    SAMPLES_PER_CHAR = COLUMNS_PER_CHAR * PIXELS_PER_COLUMN * SAMPLES_PER_PIXEL ∧
    (send_char ascii_glyphs glyphs chHit).length
        = ASCII_COLUMNS * PIXELS_PER_COLUMN * SAMPLES_PER_PIXEL ∧
    ASCII_COLUMNS * PIXELS_PER_COLUMN * SAMPLES_PER_PIXEL < SAMPLES_PER_CHAR ∧
    (∀ c, lookupGlyph ascii_glyphs glyphs c = some [] →
      send_char ascii_glyphs glyphs c
        = List.replicate SAMPLES_PER_CHAR Sample.zero) := by
  have hblank := send_char_miss _ _ _ hmiss
  have hne : g9 ≠ [] := by
    intro hemp; rw [hemp] at h9; simp [ASCII_COLUMNS] at h9
  refine ⟨hblank, by rw [hblank]; simp, by unfold SAMPLES_PER_CHAR; ring,
    ?_, by decide, ?_⟩
  · rw [send_char_hit _ _ _ _ hhit hne, charWave_length, h9, samples_for_columns]
    ring
  · intro c hc
    exact send_char_raise _ _ _ _ hc encodeBuffer_nil

theorem claim_C9_witness :
    send_char [('a', [1, 2, 3, 4, 5, 6, 7, 8, 9])] [] '?'
        = List.replicate SAMPLES_PER_CHAR Sample.zero ∧
    (send_char [('a', [1, 2, 3, 4, 5, 6, 7, 8, 9])] [] '?').length
        = SAMPLES_PER_CHAR ∧
    SAMPLES_PER_CHAR = COLUMNS_PER_CHAR * PIXELS_PER_COLUMN * SAMPLES_PER_PIXEL ∧
    (send_char [('a', [1, 2, 3, 4, 5, 6, 7, 8, 9])] [] 'a').length
        = ASCII_COLUMNS * PIXELS_PER_COLUMN * SAMPLES_PER_PIXEL ∧
    ASCII_COLUMNS * PIXELS_PER_COLUMN * SAMPLES_PER_PIXEL < SAMPLES_PER_CHAR ∧
    (∀ c, lookupGlyph [('a', [1, 2, 3, 4, 5, 6, 7, 8, 9])] [] c = some [] →
      send_char [('a', [1, 2, 3, 4, 5, 6, 7, 8, 9])] [] c
        = List.replicate SAMPLES_PER_CHAR Sample.zero) :=
  claim_C9 [('a', [1, 2, 3, 4, 5, 6, 7, 8, 9])] [] '?' 'a'
    [1, 2, 3, 4, 5, 6, 7, 8, 9] rfl (by decide) rfl rfl

/-- C10: for every non-empty column list, the column loop of
`send_char` ends with its write index exactly equal to the allocated
buffer length `columns * 14 * samples_per_pixel` (the buffer being the
exact concatenation of the column waves, so no guarded slice write was
ever skipped), the guarded trailing 1 ms silence write is therefore
always skipped, and every slice write of the loop stays within the
buffer bounds. -/
theorem claim_C10 (glyph_cols : List ℕ) (hne : glyph_cols ≠ []) :
    encodeLoop glyph_cols (samples_for_columns (max 1 glyph_cols.length))
        = some (charWave glyph_cols,
                samples_for_columns (max 1 glyph_cols.length)) ∧
    (charWave glyph_cols).length
        = samples_for_columns (max 1 glyph_cols.length) ∧
    ¬ (samples_for_columns (max 1 glyph_cols.length) + SAMPLE_RATE / 1000
         ≤ samples_for_columns (max 1 glyph_cols.length)) ∧
    encodeBuffer glyph_cols = some (charWave glyph_cols) ∧
    (∀ col y, col < max 1 glyph_cols.length → y < PIXELS_PER_COLUMN →
      (col * PIXELS_PER_COLUMN + y) * SAMPLES_PER_PIXEL + SAMPLES_PER_PIXEL
        ≤ samples_for_columns (max 1 glyph_cols.length)) := by
  have hpos : 1 ≤ glyph_cols.length := List.length_pos.mpr hne
  have hmax : max 1 glyph_cols.length = glyph_cols.length := Nat.max_eq_right hpos
  rw [hmax]
  refine ⟨encodeLoop_spec _ hne, charWave_length _, ?_,
    encodeBuffer_spec _ hne, ?_⟩
  · have := silence_samples_pos; omega
  · intro col y hcol hy
    have h1 : col * PIXELS_PER_COLUMN + y + 1
        ≤ PIXELS_PER_COLUMN * glyph_cols.length := by
      simp only [PIXELS_PER_COLUMN] at hy ⊢
      omega
    have h2 : (col * PIXELS_PER_COLUMN + y + 1) * SAMPLES_PER_PIXEL
        ≤ (PIXELS_PER_COLUMN * glyph_cols.length) * SAMPLES_PER_PIXEL :=
      Nat.mul_le_mul_right _ h1
    have h3 : samples_for_columns glyph_cols.length
        = (PIXELS_PER_COLUMN * glyph_cols.length) * SAMPLES_PER_PIXEL := by
      rw [samples_for_columns]; ring
    rw [h3, ← Nat.succ_mul]
    exact h2

theorem assemble_single (a g : Table) (gap : ℕ) (ch : Char) :
    assemble a g gap [ch]
      = ([send_char a g ch], [(send_char a g ch).length]) := by
  simp [assemble]

theorem assemble_cons_gap (a g : Table) (gap : ℕ) (hg : 0 < gap)
    (ch c2 : Char) (rest : List Char) :
    assemble a g gap (ch :: c2 :: rest)
      = (send_char a g ch :: List.replicate gap Sample.zero
           :: (assemble a g gap (c2 :: rest)).1,
         ((send_char a g ch).length + gap)
           :: (assemble a g gap (c2 :: rest)).2) := by
  simp [assemble, hg]

theorem assemble_durations_length (a g : Table) (gap : ℕ) :
    ∀ text : List Char, (assemble a g gap text).2.length = text.length := by
  intro text
  induction text with
  | nil => rfl
  | cons ch rest ih =>
    by_cases hr : rest.isEmpty
    · simp [assemble, hr, ih]
    · by_cases hgap : 0 < gap
      · simp [assemble, hr, hgap, ih]
      · simp [assemble, hr, hgap, ih]

theorem getD_map_add (x : ℕ) (l : List ℕ) (j : ℕ) (hj : j < l.length) :
    (l.map (x + ·)).getD j 0 = x + l.getD j 0 := by
  rw [List.getD_eq_getElem?_getD, List.getD_eq_getElem?_getD,
      List.getElem?_map, List.getElem?_eq_getElem hj]
  rfl

theorem claim_C10_witness :
    encodeLoop [3] (samples_for_columns (max 1 [3].length))
        = some (charWave [3], samples_for_columns (max 1 [3].length)) ∧
    (charWave [3]).length = samples_for_columns (max 1 [3].length) ∧
    ¬ (samples_for_columns (max 1 [3].length) + SAMPLE_RATE / 1000
         ≤ samples_for_columns (max 1 [3].length)) ∧
    encodeBuffer [3] = some (charWave [3]) ∧
    (∀ col y, col < max 1 [3].length → y < PIXELS_PER_COLUMN →
      (col * PIXELS_PER_COLUMN + y) * SAMPLES_PER_PIXEL + SAMPLES_PER_PIXEL
        ≤ samples_for_columns (max 1 [3].length)) :=
  claim_C10 [3] (by decide)

/-- C6: a character whose lookup misses all variants in both tables
encodes to the all-zero (silence-only) blank buffer of the nominal
character duration — `send_char` is total, so it never raises — and
assembly always completes with exactly one character entry (one
`durations_samples` element) per input character. -/
theorem claim_C6 (ascii_glyphs glyphs : Table) (ch : Char) (gap : ℕ)
    (text : List Char)
    (hmiss : lookupGlyph ascii_glyphs glyphs ch = none) :
    send_char ascii_glyphs glyphs ch
        = List.replicate SAMPLES_PER_CHAR Sample.zero ∧
    (∀ s ∈ send_char ascii_glyphs glyphs ch, s = Sample.zero) ∧
    (send_char ascii_glyphs glyphs ch).length = SAMPLES_PER_CHAR ∧
    (assemble ascii_glyphs glyphs gap text).2.length = text.length := by
  have hblank := send_char_miss _ _ _ hmiss
  refine ⟨hblank, ?_, by rw [hblank]; simp,
    assemble_durations_length _ _ _ _⟩
  intro s hs
  rw [hblank] at hs
  exact List.eq_of_mem_replicate hs

theorem claim_C6_witness :
    send_char [] [] 'X' = List.replicate SAMPLES_PER_CHAR Sample.zero ∧
    (∀ s ∈ send_char [] [] 'X', s = Sample.zero) ∧
    (send_char [] [] 'X').length = SAMPLES_PER_CHAR ∧
    (assemble [] [] INTER_CHAR_GAP_SAMPLES ['X', 'Y']).2.length
        = (['X', 'Y'] : List Char).length :=
  claim_C6 [] [] 'X' INTER_CHAR_GAP_SAMPLES ['X', 'Y'] rfl

/-- C3: assembling a non-empty text with a non-zero inter-character
gap yields one character buffer per character with one gap buffer
after every character except the last (`2 n - 1` buffers for `n`
characters, so 3 for a two-character text), and the schedule has
exactly `n` entries, entry `i` being the sum of all buffer lengths
(character plus any trailing gap) up to and including character `i` —
for a two-character text the second entry is the sum of all three
buffer lengths. -/
theorem claim_C3 (a g : Table) (gap : ℕ) (text : List Char)
    (hgap : 0 < gap) (htext : text ≠ []) :
    (assemble a g gap text).1.length = 2 * text.length - 1 ∧
    (assemble a g gap text).2.length = text.length ∧
    (scheduleOf (assemble a g gap text).2).length = text.length ∧
    (∀ i, i < text.length →
      (scheduleOf (assemble a g gap text).2).getD i 0
        = (((assemble a g gap text).1.take (2 * i + 2)).map
            List.length).sum) := by
  have hmain : ∀ t : List Char, t ≠ [] →
      (assemble a g gap t).1.length = 2 * t.length - 1 ∧
      (∀ i, i < t.length →
        (scheduleOf (assemble a g gap t).2).getD i 0
          = (((assemble a g gap t).1.take (2 * i + 2)).map
              List.length).sum) := by
    intro t
    induction t with
    | nil => intro hcon; cases hcon rfl
    | cons ch rest ih =>
      intro _
      cases rest with
      | nil =>
        refine ⟨by simp [assemble_single], ?_⟩
        intro i hi
        cases i with
        | zero => simp [assemble_single, scheduleOf, scheduleFrom]
        | succ j => exact absurd hi (by simp)
      | cons c2 r2 =>
        obtain ⟨ihlen, ihent⟩ := ih (by simp)
        rw [assemble_cons_gap a g gap hgap ch c2 r2]
        have hslen : (scheduleOf (assemble a g gap (c2 :: r2)).2).length
            = (c2 :: r2).length := by
          rw [scheduleOf, scheduleFrom_length, assemble_durations_length]
        refine ⟨?_, ?_⟩
        · simp only [List.length_cons]
          rw [ihlen]
          simp only [List.length_cons]
          omega
        · intro i hi
          rw [scheduleOf_cons]
          cases i with
          | zero => simp
          | succ j =>
            have hj : j < (c2 :: r2).length := by
              simpa using Nat.lt_of_succ_lt_succ hi
            have hjs : j < (scheduleOf (assemble a g gap (c2 :: r2)).2).length := by
              rw [hslen]; exact hj
            have hrw : 2 * (j + 1) + 2 = (2 * j + 2) + 1 + 1 := by ring
            rw [List.getD_cons_succ, getD_map_add _ _ _ hjs, ihent j hj,
                hrw, List.take_succ_cons, List.take_succ_cons, List.map_cons,
                List.map_cons, List.sum_cons, List.sum_cons,
                List.length_replicate]
            ring
  obtain ⟨h1, h4⟩ := hmain text htext
  have h2 := assemble_durations_length a g gap text
  refine ⟨h1, h2, ?_, h4⟩
  rw [scheduleOf, scheduleFrom_length, h2]

theorem claim_C3_witness :
    (assemble [] [] INTER_CHAR_GAP_SAMPLES ['A', 'B']).1.length
        = 2 * (['A', 'B'] : List Char).length - 1 ∧
    (assemble [] [] INTER_CHAR_GAP_SAMPLES ['A', 'B']).2.length
        = (['A', 'B'] : List Char).length ∧
    (scheduleOf (assemble [] [] INTER_CHAR_GAP_SAMPLES ['A', 'B']).2).length
        = (['A', 'B'] : List Char).length ∧
    (∀ i, i < (['A', 'B'] : List Char).length →
      (scheduleOf (assemble [] [] INTER_CHAR_GAP_SAMPLES ['A', 'B']).2).getD i 0
        = (((assemble [] [] INTER_CHAR_GAP_SAMPLES ['A', 'B']).1.take
            (2 * i + 2)).map List.length).sum) :=
  claim_C3 [] [] INTER_CHAR_GAP_SAMPLES ['A', 'B'] (by decide) (by decide)

/-- C2 counterexample (claim as stated is false on the code): run the
`_play_waves` chunk loop on two chunks where only the first write
fails and reinitialization succeeds — the claim predicts the job
continues after the recovered first failure, but the loop raises to
its caller immediately after the single reinitialization attempt and
writes no further chunk. -/
theorem claim_C2_counterexample :
    ¬ ((play_waves_loop (fun i => decide (0 < i)) true 2).raised = false) ∧
    (play_waves_loop (fun i => decide (0 < i)) true 2).reinitAttempts = 1 ∧
    (play_waves_loop (fun i => decide (0 < i)) true 2).written = 0 := by
  decide

/-- C2 (amended): a mid-stream write failure marks the sink
unavailable and triggers exactly one reinitialization attempt inside
the write loop (the sink ends available again exactly when that
attempt succeeds), but the failure is then surfaced to the caller
unconditionally: the job aborts on the first failing write and never
continues. -/
theorem claim_C2 (writeOk : ℕ → Bool) (reinitOk : Bool) (n : ℕ)
    (hfail : ∃ i, i < n ∧ writeOk i = false) :
    (play_waves_loop writeOk reinitOk n).raised = true ∧
    (play_waves_loop writeOk reinitOk n).reinitAttempts = 1 ∧
    (play_waves_loop writeOk reinitOk n).sinkAvailable = reinitOk := by
  have main : ∀ m k, (∃ i, k ≤ i ∧ i < k + m ∧ writeOk i = false) →
      (playWritesFrom writeOk reinitOk k m).raised = true ∧
      (playWritesFrom writeOk reinitOk k m).reinitAttempts = 1 ∧
      (playWritesFrom writeOk reinitOk k m).sinkAvailable = reinitOk := by
    intro m
    induction m with
    | zero =>
      rintro k ⟨i, h1, h2, _⟩
      omega
    | succ m ih =>
      rintro k ⟨i, h1, h2, h3⟩
      cases hwk : writeOk k with
      | true =>
        have hik : i ≠ k := by
          intro he; rw [he, hwk] at h3; cases h3
        have hrec := ih (k + 1) ⟨i, by omega, by omega, h3⟩
        simpa [playWritesFrom, hwk] using hrec
      | false =>
        simp [playWritesFrom, hwk]
  obtain ⟨i, h1, h2⟩ := hfail
  exact main n 0 ⟨i, Nat.zero_le i, by omega, h2⟩

theorem claim_C2_witness :
    (play_waves_loop (fun _ => false) true 1).raised = true ∧
    (play_waves_loop (fun _ => false) true 1).reinitAttempts = 1 ∧
    (play_waves_loop (fun _ => false) true 1).sinkAvailable = true :=
  claim_C2 (fun _ => false) true 1 ⟨0, by decide, rfl⟩

/-- C7: whatever the outcome of the `transmit_text` body — normal
completion, empty wave list, playback failure or any other body
exception — the worker's event trace ends with the trail delay
followed by `set_ptt(False)`, the last PTT call in the trace is the
deassertion, and replaying the trace against any open PTT port leaves
every configuration-enabled control line deasserted; PTT is never left
asserted on error. -/
theorem claim_C7 (o : TxOutcome) (p : PTTControl) (lines : SerialLines)
    (hport : p.serial_port = some lines) :
    transmit_text_events o
        = (transmit_text_events o).dropLast.dropLast
            ++ [TxEvent.sleepMs LATENCY_MS, TxEvent.pttCall false] ∧
    lastPtt (transmit_text_events o) = some false ∧
    (pttStateAfter p (transmit_text_events o)).serial_port
        = some { rts := if p.use_rts then false else lines.rts,
                 dtr := if p.use_dtr then false else lines.dtr } := by
  refine ⟨?_, ?_, ?_⟩
  · cases o <;> rfl
  · cases o <;> rfl
  · cases o <;>
      cases hur : p.use_rts <;> cases hud : p.use_dtr <;>
        simp [transmit_text_events, pttStateAfter, set_ptt, hport, hur, hud,
          List.foldl_cons, List.foldl_nil]

theorem claim_C7_witness :
    transmit_text_events TxOutcome.playFailed
        = (transmit_text_events TxOutcome.playFailed).dropLast.dropLast
            ++ [TxEvent.sleepMs LATENCY_MS, TxEvent.pttCall false] ∧
    lastPtt (transmit_text_events TxOutcome.playFailed) = some false ∧
    (pttStateAfter ⟨some ⟨true, true⟩, true, true⟩
        (transmit_text_events TxOutcome.playFailed)).serial_port
        = some { rts := if (⟨some ⟨true, true⟩, true, true⟩ : PTTControl).use_rts
                          then false else (⟨true, true⟩ : SerialLines).rts,
                 dtr := if (⟨some ⟨true, true⟩, true, true⟩ : PTTControl).use_dtr
                          then false else (⟨true, true⟩ : SerialLines).dtr } :=
  claim_C7 TxOutcome.playFailed ⟨some ⟨true, true⟩, true, true⟩ ⟨true, true⟩ rfl

/-- C8: when neither RTS nor DTR is enabled by configuration,
`set_ptt(True)` and `set_ptt(False)` write to neither serial control
line — the whole PTT state, and in particular both lines, keep their
prior electrical state. -/
theorem claim_C8 (p : PTTControl) (b : Bool)
    (hrts : p.use_rts = false) (hdtr : p.use_dtr = false) :
    set_ptt p b = p ∧
    (∀ lines, p.serial_port = some lines →
      (set_ptt p b).serial_port = some lines) := by
  obtain ⟨sp, ur, ud⟩ := p
  simp only at hrts hdtr
  subst hrts hdtr
  refine ⟨?_, ?_⟩
  · cases sp <;> simp [set_ptt]
  · rintro lines hl
    cases sp <;> simp_all [set_ptt]

theorem claim_C8_witness :
    set_ptt ⟨some ⟨false, true⟩, false, false⟩ true
        = (⟨some ⟨false, true⟩, false, false⟩ : PTTControl) ∧
    (∀ lines,
      (⟨some ⟨false, true⟩, false, false⟩ : PTTControl).serial_port = some lines →
      (set_ptt ⟨some ⟨false, true⟩, false, false⟩ true).serial_port
        = some lines) :=
  claim_C8 ⟨some ⟨false, true⟩, false, false⟩ true rfl rfl

end Jaguihell
